import Mathlib

/-!
Shallow embedding of the argument-definition and matching engine of the
repository (src/cli/arg.rs and src/cli/parse_args.rs), together with
theorems settling the specification claims about it.

Strings are modelled at character granularity: Rust byte indices coincide
with character counts on the ASCII tokens all of these claims concern.
Rust panics (out-of-range indexing, Option::unwrap on None) are modelled
by an outer Option, with none standing for the panic.
-/

/-- Number of leading hyphen characters of a token, as computed by
parse_value: arg.chars().take_while(is hyphen).count(). -/
def hyphenCount (s : String) : Nat :=
  (s.data.takeWhile (fun c => c == '-')).length

/-- Drop the first n characters of a string, modelling Rust slicing s[n..]. -/
def strDrop (s : String) (n : Nat) : String :=
  ⟨s.data.drop n⟩

/-- Character length of a string, modelling Rust str::len. -/
def strLen (s : String) : Nat :=
  s.data.length

/-- Rust str::starts_with. -/
def strStartsWith (s p : String) : Bool :=
  p.data.isPrefixOf s.data

/-- Arg from src/cli/arg.rs: a bare flag or a value-carrying option. -/
inductive Arg where
  | Flag : Arg
  | Option : Arg
deriving DecidableEq

/-- ArgOpts bitflags from src/cli/arg.rs, one Bool per flag bit. -/
structure ArgOpts where
  single_hyphen : Bool
  double_hyphen : Bool
  value_sep_no_space : Bool
  value_sep_equals : Bool
  value_sep_next_arg : Bool
deriving DecidableEq

/-- ArgOpts::empty from the bitflags macro. -/
def ArgOpts.empty : ArgOpts :=
  ⟨false, false, false, false, false⟩

/-- ArgOpts::is_empty from the bitflags macro: no flag bit set. -/
def ArgOpts.is_empty (o : ArgOpts) : Bool :=
  !o.single_hyphen && !o.double_hyphen && !o.value_sep_no_space &&
    !o.value_sep_equals && !o.value_sep_next_arg

/-- ArgOpts::is_hyphen_count from src/cli/arg.rs. -/
def ArgOpts.is_hyphen_count (o : ArgOpts) (count : Nat) : Bool :=
  (count == 1 && o.single_hyphen) || (count == 2 && o.double_hyphen)

/-- ArgOpts::parse_value_sep from src/cli/arg.rs. Returns the match flag
together with the separator length that the Rust code writes through
out_sep_len (written on every call, succeeding or not). -/
def ArgOpts.parse_value_sep (o : ArgOpts) (s : String) : Bool × Option Nat :=
  match s.data.head? with
  | some c =>
    if c == '=' && o.value_sep_equals then (true, some 1)
    else if o.value_sep_no_space then (true, some 0)
    else (false, none)
  | none =>
    if o.value_sep_next_arg then (true, none)
    else if o.value_sep_no_space then (true, some 0)
    else (false, none)

/-- ArgDef from src/cli/arg.rs. -/
structure ArgDef where
  arg : Arg
  name : String
  aliases : List String
  opts : ArgOpts
deriving DecidableEq

/-- Arg::with_name from src/cli/arg.rs. -/
def Arg.with_name (a : Arg) (name : String) : ArgDef :=
  ⟨a, name, [], ArgOpts.empty⟩

/-- Arg::flag from src/cli/arg.rs. -/
def Arg.flag (name : String) : ArgDef :=
  Arg.Flag.with_name name

/-- Arg::option from src/cli/arg.rs. -/
def Arg.option (name : String) : ArgDef :=
  Arg.Option.with_name name

/-- ArgDef::with_alias from src/cli/arg.rs. -/
def ArgDef.with_alias (d : ArgDef) (aliases : List String) : ArgDef :=
  { d with aliases := aliases }

/-- ArgDef::with_opts from src/cli/arg.rs. -/
def ArgDef.with_opts (d : ArgDef) (opts : ArgOpts) : ArgDef :=
  { d with opts := opts }

/-- ArgDef::is_name_eq from src/cli/parse_args.rs. -/
def ArgDef.is_name_eq (d : ArgDef) (s : String) : Bool :=
  d.name == s || d.aliases.any (fun a => a == s)

/-- FormattedArg from src/cli/arg.rs. -/
inductive FormattedArg where
  | None : FormattedArg
  | One : String → FormattedArg
  | Two : String → String → FormattedArg
deriving DecidableEq

/-- ArgDef::format from src/cli/arg.rs. The outer Option models the panic
of value.unwrap() when an Option-kind definition is given no value. -/
def ArgDef.format (d : ArgDef) (value : Option String) : Option FormattedArg :=
  match d.arg with
  | Arg.Flag =>
    if d.opts.is_empty then
      some (FormattedArg.One ("-" ++ (if strLen d.name > 1 then "-" else "") ++ d.name))
    else
      some (FormattedArg.One ("-" ++ (if d.opts.single_hyphen then "" else "-") ++ d.name))
  | Arg.Option =>
    let sep : Option String :=
      if d.opts.value_sep_equals then some "="
      else if d.opts.value_sep_no_space then some ""
      else none
    let second_hyphen : String :=
      if d.opts.single_hyphen then ""
      else if d.opts.double_hyphen then "-"
      else if strLen d.name > 1 then "-" else ""
    match value with
    | none => none
    | some v =>
      match sep with
      | some s => some (FormattedArg.One ("-" ++ second_hyphen ++ d.name ++ s ++ v))
      | none => some (FormattedArg.Two ("-" ++ second_hyphen ++ d.name) v)

/-- The name and separator resolution inside the Arg::Option branch of
ArgDef::parse_value: the canonical name is tried first, then each alias in
declared order; the result pairs the matched name length with the
separator length delivered by the successful parse_value_sep call. -/
def find_name_len (d : ArgDef) (arg : String) : Option (Nat × Option Nat) :=
  if strStartsWith arg d.name && (d.opts.parse_value_sep (strDrop arg (strLen d.name))).1 then
    some (strLen d.name, (d.opts.parse_value_sep (strDrop arg (strLen d.name))).2)
  else
    match d.aliases.find? (fun s =>
        strStartsWith arg s && (d.opts.parse_value_sep (strDrop arg (strLen s))).1) with
    | some s => some (strLen s, (d.opts.parse_value_sep (strDrop arg (strLen s))).2)
    | none => none

/-- ArgDef::parse_value from src/cli/parse_args.rs. The outer Option models
the index panic of args[i]; a some result carries the match outcome
(absent, flag, or value) and the token sequence after any removal. -/
def parse_value (d : ArgDef) (i : Nat) (args : List String) :
    Option (Option (Option String) × List String) :=
  match args[i]? with
  | none => none
  | some tok =>
    if d.opts.is_hyphen_count (hyphenCount tok) then
      some (none, args)
    else
      let body := strDrop tok (hyphenCount tok)
      match d.arg with
      | Arg.Flag =>
        if d.is_name_eq body then some (some none, args.eraseIdx i)
        else some (none, args)
      | Arg.Option =>
        match find_name_len d body with
        | some (name_len, some sep_len) =>
          some (some (some (strDrop tok (name_len + sep_len))), args.eraseIdx i)
        | some (_, none) =>
          some (some args[i + 1]?,
            args.take i ++ args.drop (min (i + 1) (args.length - 1) + 1))
        | none => some (none, args)

/-- The inner for loop of ParseFrom::parse_from: try every definition at
index i in declared order, writing each attempt into the result slot of
that definition and overwriting the removed flag with each attempt. -/
def run_defs (defs : List ArgDef) (def_i : Nat) (i : Nat)
    (results : List (Option (Option String))) (args : List String) (removed : Bool) :
    Option (List (Option (Option String)) × List String × Bool) :=
  match defs with
  | [] => some (results, args, removed)
  | d :: rest =>
    match parse_value d i args with
    | none => none
    | some (r, args1) =>
      run_defs rest (def_i + 1) i (results.set def_i r) args1 r.isSome

/-- The while loop of ParseFrom::parse_from. The fuel argument is a pure
termination device: every iteration strictly decreases args.length - i,
and parse_from supplies fuel strictly larger than that measure, so the
zero case is never reached (parse_from_loop_fuel_stable below). -/
def parse_from_loop (defs : List ArgDef) :
    Nat → Nat → List (Option (Option String)) → List String →
    Option (List (Option (Option String)) × List String)
  | 0, _, results, args => some (results, args)
  | fuel + 1, i, results, args =>
    if i < args.length then
      match run_defs defs 0 i results args false with
      | none => none
      | some (results1, args1, removed) =>
        if removed then parse_from_loop defs fuel i results1 args1
        else parse_from_loop defs fuel (i + 1) results1 args1
    else some (results, args)

/-- ParseFrom::parse_from from src/cli/parse_args.rs (Args::parse is a
direct wrapper around it): result slots initialised to all-absent, scan
from index 0. -/
def parse_from (defs : List ArgDef) (args : List String) :
    Option (List (Option (Option String)) × List String) :=
  parse_from_loop defs (args.length + 1) 0 (List.replicate defs.length none) args

/-! Helper lemmas about the engine. -/

/-- Keeping a front segment and a tail further right is a sublist. -/
theorem take_append_drop_sublist (l : List α) (i j : Nat) (hij : i ≤ j) :
    List.Sublist (l.take i ++ l.drop j) l := by
  have h1 : List.Sublist (l.take i ++ l.drop j) (l.take i ++ l.drop i) :=
    List.Sublist.append_left (List.drop_sublist_drop_left l hij) _
  rw [List.take_append_drop] at h1
  exact h1

/-- A successful parse_value call got its token, so the index is in range. -/
theorem parse_value_lt_length {d : ArgDef} {i : Nat} {args : List String}
    {p : Option (Option String) × List String}
    (h : parse_value d i args = some p) : i < args.length := by
  by_contra hc
  rw [parse_value, List.getElem?_eq_none (by omega)] at h
  exact absurd h (by simp)

/-- parse_value only ever removes tokens from the sequence. -/
theorem parse_value_sublist {d : ArgDef} {i : Nat} {args : List String}
    {r : Option (Option String)} {out : List String}
    (h : parse_value d i args = some (r, out)) : List.Sublist out args := by
  have hi : i < args.length := parse_value_lt_length h
  rw [parse_value] at h
  rcases hidx : args[i]? with _ | tok
  · rw [hidx] at h; exact absurd h (by simp)
  · rw [hidx] at h
    simp only at h
    split at h
    · simp only [Option.some.injEq, Prod.mk.injEq] at h
      rw [← h.2]
    · split at h
      · split at h
        · simp only [Option.some.injEq, Prod.mk.injEq] at h
          rw [← h.2]
          exact List.eraseIdx_sublist args i
        · simp only [Option.some.injEq, Prod.mk.injEq] at h
          rw [← h.2]
      · split at h
        · simp only [Option.some.injEq, Prod.mk.injEq] at h
          rw [← h.2]
          exact List.eraseIdx_sublist args i
        · simp only [Option.some.injEq, Prod.mk.injEq] at h
          rw [← h.2]
          exact take_append_drop_sublist args i _ (by omega)
        · simp only [Option.some.injEq, Prod.mk.injEq] at h
          rw [← h.2]

/-- A matching parse_value call strictly shrinks the sequence. -/
theorem parse_value_isSome_length_lt {d : ArgDef} {i : Nat} {args : List String}
    {r : Option (Option String)} {out : List String}
    (h : parse_value d i args = some (r, out)) (hr : r.isSome = true) :
    out.length < args.length := by
  have hi : i < args.length := parse_value_lt_length h
  rw [parse_value] at h
  rcases hidx : args[i]? with _ | tok
  · rw [hidx] at h; exact absurd h (by simp)
  · rw [hidx] at h
    simp only at h
    split at h
    · simp only [Option.some.injEq, Prod.mk.injEq] at h
      rw [← h.1] at hr
      exact absurd hr (by simp)
    · split at h
      · split at h
        · simp only [Option.some.injEq, Prod.mk.injEq] at h
          rw [← h.2, List.length_eraseIdx_of_lt hi]
          omega
        · simp only [Option.some.injEq, Prod.mk.injEq] at h
          rw [← h.1] at hr
          exact absurd hr (by simp)
      · split at h
        · simp only [Option.some.injEq, Prod.mk.injEq] at h
          rw [← h.2, List.length_eraseIdx_of_lt hi]
          omega
        · simp only [Option.some.injEq, Prod.mk.injEq] at h
          rw [← h.2]
          have hmin : i ≤ min (i + 1) (args.length - 1) := by
            have h1 := Nat.min_le_left (i + 1) (args.length - 1)
            have h2 := Nat.min_le_right (i + 1) (args.length - 1)
            omega
          have hmin2 := Nat.min_le_right (i + 1) (args.length - 1)
          rw [List.length_append, List.length_take, List.length_drop]
          omega
        · simp only [Option.some.injEq, Prod.mk.injEq] at h
          rw [← h.1] at hr
          exact absurd hr (by simp)

/-- The inner loop only ever removes tokens from the sequence. -/
theorem run_defs_sublist (defs : List ArgDef) :
    ∀ def_i i results args removed rs out rem,
      run_defs defs def_i i results args removed = some (rs, out, rem) →
      List.Sublist out args := by
  induction defs with
  | nil =>
    intro def_i i results args removed rs out rem h
    simp only [run_defs, Option.some.injEq, Prod.mk.injEq] at h
    rw [← h.2.1]
  | cons d rest ih =>
    intro def_i i results args removed rs out rem h
    rw [run_defs] at h
    rcases hpv : parse_value d i args with _ | p
    · rw [hpv] at h; exact absurd h (by simp)
    · obtain ⟨r, args1⟩ := p
      rw [hpv] at h
      simp only at h
      exact (ih _ _ _ _ _ _ _ _ h).trans (parse_value_sublist hpv)

/-- When the inner loop reports removal, either the flag came in set or some
definition truly shrank the sequence; for nonempty definition lists and a
clear incoming flag the sequence strictly shrank. -/
theorem run_defs_removed_lt (defs : List ArgDef) :
    ∀ def_i i results args removed rs out,
      run_defs defs def_i i results args removed = some (rs, out, true) →
      removed = true ∨ out.length < args.length := by
  induction defs with
  | nil =>
    intro def_i i results args removed rs out h
    simp only [run_defs, Option.some.injEq, Prod.mk.injEq] at h
    exact Or.inl h.2.2
  | cons d rest ih =>
    intro def_i i results args removed rs out h
    rw [run_defs] at h
    rcases hpv : parse_value d i args with _ | p
    · rw [hpv] at h; exact absurd h (by simp)
    · obtain ⟨r, args1⟩ := p
      rw [hpv] at h
      simp only at h
      rcases ih _ _ _ _ _ _ _ h with hcase | hcase
      · right
        have h1 := parse_value_isSome_length_lt hpv hcase
        have h2 := (run_defs_sublist rest _ _ _ _ _ _ _ _ h).length_le
        omega
      · right
        have h2 := (parse_value_sublist hpv).length_le
        omega

/-- The loop result does not depend on the fuel once the fuel exceeds the
measure args.length - i: the fuel is a pure termination device and the
zero case of parse_from_loop is never reached from parse_from. -/
theorem parse_from_loop_fuel_stable (defs : List ArgDef) :
    ∀ fuel1 fuel2 i results args,
      args.length - i < fuel1 → args.length - i < fuel2 →
      parse_from_loop defs fuel1 i results args = parse_from_loop defs fuel2 i results args := by
  intro fuel1
  induction fuel1 with
  | zero => intro fuel2 i results args h1 h2; omega
  | succ f ihf =>
    intro fuel2 i results args h1 h2
    rcases fuel2 with _ | g
    · omega
    · rw [parse_from_loop, parse_from_loop]
      by_cases hi : i < args.length
      · rw [if_pos hi, if_pos hi]
        rcases hrd : run_defs defs 0 i results args false with _ | t
        · rfl
        · obtain ⟨results1, args1, removed⟩ := t
          simp only
          rcases removed with _ | _
          · simp only [Bool.false_eq_true, if_false]
            have hle := (run_defs_sublist defs _ _ _ _ _ _ _ _ hrd).length_le
            exact ihf g (i + 1) results1 args1 (by omega) (by omega)
          · simp only [if_true]
            have hlt : args1.length < args.length := by
              rcases run_defs_removed_lt defs _ _ _ _ _ _ _ hrd with hc | hc
              · exact absurd hc (by simp)
              · exact hc
            exact ihf g i results1 args1 (by omega) (by omega)
      · rw [if_neg hi, if_neg hi]

/-- The while loop only ever removes tokens from the sequence. -/
theorem parse_from_loop_sublist (defs : List ArgDef) :
    ∀ fuel i results args rs out,
      parse_from_loop defs fuel i results args = some (rs, out) →
      List.Sublist out args := by
  intro fuel
  induction fuel with
  | zero =>
    intro i results args rs out h
    simp only [parse_from_loop, Option.some.injEq, Prod.mk.injEq] at h
    rw [← h.2]
  | succ f ihf =>
    intro i results args rs out h
    rw [parse_from_loop] at h
    by_cases hi : i < args.length
    · rw [if_pos hi] at h
      rcases hrd : run_defs defs 0 i results args false with _ | t
      · rw [hrd] at h; exact absurd h (by simp)
      · obtain ⟨results1, args1, removed⟩ := t
        rw [hrd] at h
        simp only at h
        have hsub := run_defs_sublist defs _ _ _ _ _ _ _ _ hrd
        rcases removed with _ | _
        · simp only [Bool.false_eq_true, if_false] at h
          exact (ihf _ _ _ _ _ h).trans hsub
        · simp only [if_true] at h
          exact (ihf _ _ _ _ _ h).trans hsub
    · rw [if_neg hi] at h
      simp only [Option.some.injEq, Prod.mk.injEq] at h
      rw [← h.2]

/-! Claim theorems. -/

/-- C7: ArgDef::format is total for every Flag-kind definition with any
value argument and for every Option-kind definition with a present value;
the value.unwrap() failure path is unreachable under that precondition. -/
theorem C7_format_total (d : ArgDef) (v : Option String)
    (h : d.arg = Arg.Flag ∨ v.isSome = true) : (d.format v).isSome = true := by
  rcases harg : d.arg with _ | _
  · simp only [ArgDef.format, harg]
    split <;> rfl
  · rcases h with h | h
    · rw [harg] at h
      exact absurd h (by simp)
    · rcases v with _ | v
      · exact absurd h (by simp)
      · simp only [ArgDef.format, harg]
        split <;> rfl

/-- Witness for C7 at a concrete flag definition. -/
theorem C7_format_total_w : ((Arg.flag "x").format none).isSome = true :=
  C7_format_total (Arg.flag "x") none (Or.inl rfl)

/-- C8: whenever ArgDef::parse_value reports no match, the token sequence
is returned exactly unchanged. -/
theorem C8_no_match_unchanged (d : ArgDef) (i : Nat) (args out : List String)
    (h : parse_value d i args = some (none, out)) : out = args := by
  rw [parse_value] at h
  rcases hidx : args[i]? with _ | tok
  · rw [hidx] at h
    exact absurd h (by simp)
  · rw [hidx] at h
    simp only at h
    split at h
    · simp only [Option.some.injEq, Prod.mk.injEq] at h
      exact h.2.symm
    · split at h
      · split at h
        · exact absurd h (by simp)
        · simp only [Option.some.injEq, Prod.mk.injEq] at h
          exact h.2.symm
      · split at h
        · exact absurd h (by simp)
        · exact absurd h (by simp)
        · simp only [Option.some.injEq, Prod.mk.injEq] at h
          exact h.2.symm

/-- Witness for C8 at a concrete non-matching token. -/
theorem C8_no_match_unchanged_w :
    parse_value (Arg.flag "a") 0 ["zzz"] = some (none, ["zzz"]) ∧
    (["zzz"] : List String) = ["zzz"] :=
  ⟨by decide, C8_no_match_unchanged (Arg.flag "a") 0 ["zzz"] ["zzz"] (by decide)⟩

/-- C9: a completed batch-parse call leaves a sublist of the incoming token
sequence: tokens are only removed, never duplicated, reordered or edited
in place. -/
theorem C9_parse_from_sublist (defs : List ArgDef) (args : List String)
    (rs : List (Option (Option String))) (out : List String)
    (h : parse_from defs args = some (rs, out)) : List.Sublist out args :=
  parse_from_loop_sublist defs _ _ _ _ _ _ h

/-- Witness for C9 at a concrete run. -/
theorem C9_parse_from_sublist_w :
    parse_from [Arg.flag "a"] ["x", "a"] = some ([some none], ["x"]) ∧
    List.Sublist ["x"] ["x", "a"] :=
  ⟨by decide, C9_parse_from_sublist [Arg.flag "a"] ["x", "a"] [some none] ["x"] (by decide)⟩

/-- C10: for an Option-kind definition with the next-token separator
enabled, a token that passes the hyphen gate and whose body equals the
name, sitting at the last index, is removed alone and reported as present
with an absent value (Some none). -/
theorem C10_next_token_at_end (d : ArgDef) (args : List String) (i : Nat) (tok : String)
    (harg : d.arg = Arg.Option)
    (hnext : d.opts.value_sep_next_arg = true)
    (hidx : args[i]? = some tok)
    (hlast : i + 1 = args.length)
    (hgate : d.opts.is_hyphen_count (hyphenCount tok) = false)
    (hbody : strDrop tok (hyphenCount tok) = d.name) :
    parse_value d i args = some (some none, args.take i) := by
  have hpvs : d.opts.parse_value_sep "" = (true, none) := by
    simp [ArgOpts.parse_value_sep, hnext]
  have hsw : strStartsWith d.name d.name = true := by
    simp [strStartsWith]
  have hdrop : strDrop d.name (strLen d.name) = "" := by
    simp only [strDrop, strLen, List.drop_length]
  have hfnl : find_name_len d (strDrop tok (hyphenCount tok)) = some (strLen d.name, none) := by
    rw [hbody, find_name_len, hsw, hdrop, hpvs]
    simp
  rw [parse_value, hidx]
  simp only [hgate, Bool.false_eq_true, if_false, harg, hfnl]
  have hnone : args[i + 1]? = none := List.getElem?_eq_none (by omega)
  have hmin : min (i + 1) (args.length - 1) = i := by
    omega
  rw [hnone, hmin, hlast, List.drop_length, List.append_nil]

/-- Witness for C10 at a concrete definition and token sequence. -/
theorem C10_next_token_at_end_w :
    parse_value ((Arg.option "name").with_opts ⟨false, false, false, false, true⟩)
      0 ["--name"] = some (some none, []) :=
  C10_next_token_at_end ((Arg.option "name").with_opts ⟨false, false, false, false, true⟩)
    ["--name"] 0 "--name" rfl rfl (by decide) rfl (by decide) (by decide)

/-- C6 counterexample: a Flag definition with a length-1 name and only a
separator facet set (no hyphen facet) formats with two hyphens, not with
the one hyphen the name-length inference of the claim requires. -/
theorem C6_counterexample :
    ((Arg.flag "v").with_opts ⟨false, false, false, true, false⟩).format none =
      some (FormattedArg.One "--v") ∧
    ¬ ((Arg.flag "v").with_opts ⟨false, false, false, true, false⟩).format none =
      some (FormattedArg.One "-v") :=
  ⟨by decide, by decide⟩

/-- C6 (amended): format on a Flag-kind definition ignores the value and
produces one token; the prefix is inferred from the name length only when
the ArgOpts bit-set is completely empty; otherwise it is one hyphen when
single-hyphen is set and two hyphens in every other case, including when
only separator facets are set. -/
theorem C6_flag_format (d : ArgDef) (v : Option String) (h : d.arg = Arg.Flag) :
    d.format v = some (FormattedArg.One ("-" ++
      (if d.opts.is_empty then (if strLen d.name > 1 then "-" else "")
       else if d.opts.single_hyphen then "" else "-") ++ d.name)) := by
  simp only [ArgDef.format, h]
  split
  · simp_all
  · simp_all

/-- Witness for C6 at a concrete flag definition with empty options. -/
theorem C6_flag_format_w :
    (Arg.flag "verbose").format none = some (FormattedArg.One ("-" ++
      (if (Arg.flag "verbose").opts.is_empty
        then (if strLen (Arg.flag "verbose").name > 1 then "-" else "")
        else if (Arg.flag "verbose").opts.single_hyphen then "" else "-") ++
      (Arg.flag "verbose").name)) :=
  C6_flag_format (Arg.flag "verbose") none rfl

/-- C1: evaluation of the code at inputs refuting the claimed hyphen gate.
First conjunct: with no hyphen facet set and the long name "name", a token
with zero hyphens still matches, though the claimed name-length inference
allows only two hyphens. Second conjunct: with allows-single-hyphen set,
the token -v with exactly one hyphen is reported as no match, though count
one is allowed; the gate in the code is inverted. -/
theorem C1_hyphen_gate_eval :
    parse_value (Arg.flag "name") 0 ["name"] = some (some none, []) ∧
    parse_value ((Arg.flag "v").with_opts ⟨true, false, false, false, false⟩) 0 ["-v"] =
      some (none, ["-v"]) :=
  ⟨by decide, by decide⟩

/-- C2: evaluation of the code at an input refuting the claimed advance
rule. The first definition matches and consumes the first token a, but the
removed flag is overwritten by the failing attempt of the second
definition, so the scan advances and never examines the shifted second
token a, which remains in the output sequence. -/
theorem C2_removed_flag_eval :
    parse_from [Arg.flag "a", Arg.flag "b"] ["a", "a"] =
      some ([some none, none], ["a"]) := by decide

/-- C3: evaluation of the code at the input of the non-interference claim.
The sequence is reduced as claimed, but the result slot of the definition
is overwritten to absent when the definition is re-probed at the trailing
token positional after its match was recorded. -/
theorem C3_non_interference_eval :
    parse_from [(Arg.option "name").with_opts ⟨false, false, false, true, false⟩]
      ["--other", "--name=value", "positional"] =
      some ([none], ["--other", "positional"]) := by decide

/-- C4: evaluation of the code refuting the leftover re-parse claim. The
first parse leaves the second a unexamined (the removed flag bug skips
it); re-running parse on that leftover matches it, returning a present
result and shrinking the sequence again. -/
theorem C4_second_parse_eval :
    parse_from [Arg.flag "a", Arg.flag "b"] ["a", "a", "x"] =
      some ([none, none], ["a", "x"]) ∧
    parse_from [Arg.flag "a", Arg.flag "b"] ["a", "x"] =
      some ([some none, none], ["x"]) :=
  ⟨by decide, by decide⟩

/-- C5: evaluation of the code at the round-trip input. Formatting yields
the claimed token, but parsing it back extracts e=value: the slice offset
name_len + sep_len is taken in the full token without adding the hyphen
count. -/
theorem C5_roundtrip_eval :
    ((Arg.option "name").with_opts ⟨false, false, false, true, false⟩).format (some "value") =
      some (FormattedArg.One "--name=value") ∧
    parse_from [(Arg.option "name").with_opts ⟨false, false, false, true, false⟩]
      ["--name=value"] =
      some ([some (some "e=value")], []) :=
  ⟨by decide, by decide⟩
